import Mathlib

/-!
Verification of the `aperiodic` tiling engine (`src/web/src/engine/`):
shallow embedding of `penrose.ts`, `periodic.ts` and `recovery.ts`.

Coordinates are embedded over an arbitrary linear ordered field `K`
(instantiated at `ℚ` for concrete evaluation and at `ℝ` for the
trigonometric Penrose construction).  The source compares Euclidean
distances computed with `Math.sqrt`; since `Real.sqrt` is strictly
monotone on nonnegative inputs, every comparison `sqrt s < b` of the
source is embedded sign-correctly on squared distances
(`0 < b ∧ s < b^2`), which is an exact translation of the float-free
idealization of the code.
-/

namespace Aperiodic

attribute [local semireducible] Rat.ofScientific Rat.mul Rat.inv Rat.add Rat.sub

/-- `Point` from `penrose.ts`: a pair of coordinates. -/
structure Point (K : Type) where
  x : K
  y : K
deriving DecidableEq

/-- The tile kind tag: the source uses the strings `'thick' | 'thin'`. -/
inductive TileKind where
  | thick
  | thin
deriving DecidableEq

/-- `Tile` from `penrose.ts`: a kind tag, a vertex list and a cached center. -/
structure Tile (K : Type) where
  type : TileKind
  vertices : List (Point K)
  center : Point K
deriving DecidableEq

section Engine

variable {K : Type} [LinearOrderedField K]

instance : Inhabited (Point K) := ⟨⟨0, 0⟩⟩

instance : Inhabited (Tile K) := ⟨⟨TileKind.thick, [], ⟨0, 0⟩⟩⟩

/-- `getTileCenter` from `penrose.ts`. -/
def getTileCenter (tile : Tile K) : Point K := tile.center

/-- Squared Euclidean distance; the source's `dist p q` is `√(sqDist p q)`. -/
def sqDist (p1 p2 : Point K) : K := (p1.x - p2.x) ^ 2 + (p1.y - p2.y) ^ 2

/-- The `mode` argument of `recoverTiles`. -/
inductive Mode where
  | penrose
  | periodic

/-- Translation of a point by `(dx, dy)`. -/
def shiftPoint (dx dy : K) (p : Point K) : Point K := ⟨p.x + dx, p.y + dy⟩

/-- The per-tile shift applied by `recoverTiles` (mode `periodic`) and by
`shiftPeriodicTiling`: all vertices and the center translated. -/
def shiftTile (dx dy : K) (t : Tile K) : Tile K :=
  ⟨t.type, t.vertices.map (shiftPoint dx dy), shiftPoint dx dy t.center⟩

/-- `recoverTiles` from `recovery.ts`: identity for `penrose`; for `periodic`
every tile whose index is in `erasedIndices` is shifted by `(8, 6)`. -/
def recoverTiles (allTiles : List (Tile K)) (erasedIndices : List Nat)
    (mode : Mode) : List (Tile K) :=
  match mode with
  | Mode.penrose => allTiles
  | Mode.periodic =>
      allTiles.mapIdx (fun index tile =>
        if index ∈ erasedIndices then shiftTile 8 6 tile else tile)

/-- Boolean embedding of the source comparison `√s < b` (with `0 ≤ s`):
`√s < b ↔ 0 < b ∧ s < b²`. -/
def sqrtLtB (s b : K) : Bool := decide (0 < b) && decide (s < b ^ 2)

/-- Boolean embedding of the source comparison `b ≤ √s` (with `0 ≤ s`):
`b ≤ √s ↔ b ≤ 0 ∨ b² ≤ s`. -/
def leSqrtB (b s : K) : Bool := decide (b ≤ 0) || decide (b ^ 2 ≤ s)

/-- `getBoundaryTiles` from `recovery.ts`: indices of non-erased tiles whose
center distance `d` from `eraseCenter` satisfies
`0.8 * eraseRadius ≤ d < 1.5 * eraseRadius`, in ascending index order. -/
def getBoundaryTiles (allTiles : List (Tile K)) (erasedIndices : Finset Nat)
    (eraseCenter : Point K) (eraseRadius : K) : List Nat :=
  (List.range allTiles.length).filter (fun index =>
    !(decide (index ∈ erasedIndices)) &&
      (sqrtLtB (sqDist (getTileCenter (allTiles.getD index default)) eraseCenter)
          (eraseRadius * (15/10)) &&
        leSqrtB (eraseRadius * (8/10))
          (sqDist (getTileCenter (allTiles.getD index default)) eraseCenter)))

/-- `getRecoveryOrder` from `recovery.ts`: sort the erased indices by
descending distance of their tile's center from `eraseCenter` (the source
comparator `distB - distA` orders farthest first; comparing the sqrt
distances is equivalent to comparing the squared distances). -/
def getRecoveryOrder (allTiles : List (Tile K)) (erasedIndices : List Nat)
    (eraseCenter : Point K) : List Nat :=
  erasedIndices.mergeSort (fun a b =>
    decide (sqDist (getTileCenter (allTiles.getD b default)) eraseCenter ≤
      sqDist (getTileCenter (allTiles.getD a default)) eraseCenter))

/-- Vertex-matching test of `getNeighbors`: both coordinates within `eps`. -/
def closePt (eps : K) (v1 v2 : Point K) : Bool :=
  decide (|v1.x - v2.x| < eps) && decide (|v1.y - v2.y| < eps)

/-- The shared-vertex count of `getNeighbors`: the number of vertices of `t1`
having some vertex of `t2` within tolerance `1` in both coordinates (the
inner `break` of the source makes each `v1` count at most once). -/
def sharedCount (t1 t2 : Tile K) : Nat :=
  t1.vertices.countP (fun v1 => t2.vertices.any (fun v2 => closePt 1 v1 v2))

/-- `getNeighbors` from `recovery.ts`: indices distinct from `targetIndex`
whose tile shares at least 2 vertices with the target tile. -/
def getNeighbors (targetIndex : Nat) (allTiles : List (Tile K)) : List Nat :=
  (List.range allTiles.length).filter (fun index =>
    decide (index ≠ targetIndex) &&
      decide (2 ≤ sharedCount (allTiles.getD targetIndex default)
        (allTiles.getD index default)))

/-- A tile has well-separated vertices when any two of its vertices differ by
at least twice the matching tolerance in some coordinate, so that no single
point can be within tolerance of two distinct vertices of the tile. -/
def separated (t : Tile K) : Prop :=
  t.vertices.Pairwise (fun u v => 2 ≤ |u.x - v.x| ∨ 2 ≤ |u.y - v.y|)

instance (t : Tile K) : Decidable (separated t) := by
  unfold separated
  infer_instance

/-- The cached center of a tile is the arithmetic mean of its 4 vertices. -/
def isCentroid (t : Tile K) : Prop :=
  ∃ a b c d : Point K, t.vertices = [a, b, c, d] ∧
    t.center = ⟨(a.x + b.x + c.x + d.x) / 4, (a.y + b.y + c.y + d.y) / 4⟩

/-- The integer interval `[a, b)` as a list, as traversed by the source's
`for` loops. -/
def intRange (a b : Int) : List Int :=
  (List.range (b - a).toNat).map (fun k => a + (k : Int))

/-- The base anchor of the cell at `(row, col)` in `generatePeriodicTiling`:
`baseX = col * tileSize + (row % 2) * (tileSize / 2)` with the source
language's truncated remainder (negative for negative odd rows), and
`baseY = row * tileSize * 0.9`. -/
def baseAnchor (tileSize : K) (row col : Int) : Point K :=
  ⟨(col : K) * tileSize + ((Int.tmod row 2 : Int) : K) * (tileSize / 2),
   (row : K) * tileSize * (9/10)⟩

/-- The single parallelogram tile of `generatePeriodicTiling` at `(row, col)`:
vertices at the anchor plus `(0,0)`, `(tileSize, 0)`,
`(tileSize + 0.3*tileSize, 0.8*tileSize)`, `(0.3*tileSize, 0.8*tileSize)`,
center at anchor plus `(0.65*tileSize, 0.4*tileSize)`. -/
def periodicTile (tileSize : K) (row col : Int) : Tile K :=
  ⟨TileKind.thick,
   [⟨(baseAnchor tileSize row col).x, (baseAnchor tileSize row col).y⟩,
    ⟨(baseAnchor tileSize row col).x + tileSize, (baseAnchor tileSize row col).y⟩,
    ⟨(baseAnchor tileSize row col).x + tileSize + tileSize * (3/10),
     (baseAnchor tileSize row col).y + tileSize * (8/10)⟩,
    ⟨(baseAnchor tileSize row col).x + tileSize * (3/10),
     (baseAnchor tileSize row col).y + tileSize * (8/10)⟩],
   ⟨(baseAnchor tileSize row col).x + tileSize * (65/100),
    (baseAnchor tileSize row col).y + tileSize * (4/10)⟩⟩

/-- `isVisible` from `periodic.ts` (margin 50). -/
def isVisible (tile : Tile K) (width height : K) : Bool :=
  decide (-50 < tile.center.x) && decide (tile.center.x < width + 50) &&
    decide (-50 < tile.center.y) && decide (tile.center.y < height + 50)

/-- `generatePeriodicTiling` from `periodic.ts`: a staggered parallelogram
grid over rows and columns `-2 ≤ i < ceil(extent / tileSize) + 4`, keeping
visible tiles. -/
def generatePeriodicTiling [FloorRing K] (width height : K) (tileSize : K) :
    List (Tile K) :=
  (intRange (-2) (⌈height / tileSize⌉ + 4)).flatMap (fun row =>
    ((intRange (-2) (⌈width / tileSize⌉ + 4)).map (fun col =>
      periodicTile tileSize row col)).filter (fun t => isVisible t width height))

end Engine

/-- The half-tile label from `penrose.ts`: `L` (half thick) or `S` (half thin). -/
inductive HalfKind where
  | L
  | S
deriving DecidableEq

/-- `HalfTile` from `penrose.ts`: a labeled triangle with apex `A` and base
vertices `B`, `C`. -/
structure HalfTile (K : Type) where
  type : HalfKind
  A : Point K
  B : Point K
  C : Point K
deriving DecidableEq

section Reassembly

variable {K : Type} [LinearOrderedField K]

instance : Inhabited (HalfTile K) := ⟨⟨HalfKind.L, ⟨0, 0⟩, ⟨0, 0⟩, ⟨0, 0⟩⟩⟩

/-- `lerp` from `penrose.ts`. -/
def lerp (p1 p2 : Point K) (t : K) : Point K :=
  ⟨p1.x + (p2.x - p1.x) * t, p1.y + (p2.y - p1.y) * t⟩

/-- The base-edge matching test of `halvesToTiles`: the `BC` edges of the two
halves coincide within tolerance in either direction.  The source compares
`dist < eps` with `eps = 2`; here squared distances are compared with
`eps2 = eps² = 4`. -/
def edgeMatch (eps2 : K) (h1 h2 : HalfTile K) : Bool :=
  (decide (sqDist h1.B h2.B < eps2) && decide (sqDist h1.C h2.C < eps2)) ||
    (decide (sqDist h1.B h2.C < eps2) && decide (sqDist h1.C h2.B < eps2))

/-- The inner-loop test of `halvesToTiles`: candidate `j` is unused, has the
same type as `i` and matches on the base edge. -/
def matchOk (halves : List (HalfTile K)) (used : List Nat) (i j : Nat) : Bool :=
  !(decide (j ∈ used)) &&
    decide ((halves.getD i default).type = (halves.getD j default).type) &&
    edgeMatch 4 (halves.getD i default) (halves.getD j default)

/-- The inner loop of `halvesToTiles`: the first matching partner `j > i`. -/
def findPartner (halves : List (HalfTile K)) (used : List Nat) (i : Nat) :
    Option Nat :=
  (List.range' (i + 1) (halves.length - (i + 1))).find? (matchOk halves used i)

/-- The rhombus assembled from two matched halves: vertices
`[h1.A, h1.B, h2.A, h1.C]`, kind from the half type, center the mean of the
4 vertices. -/
def mkRhombus (h1 h2 : HalfTile K) : Tile K :=
  ⟨if h1.type = HalfKind.L then TileKind.thick else TileKind.thin,
   [h1.A, h1.B, h2.A, h1.C],
   ⟨(h1.A.x + h1.B.x + h2.A.x + h1.C.x) / 4,
    (h1.A.y + h1.B.y + h2.A.y + h1.C.y) / 4⟩⟩

/-- One outer-loop step of `halvesToTiles` at index `i`, acting on the state
`(used, tiles)`. -/
def pairStep (halves : List (HalfTile K)) (st : List Nat × List (Tile K))
    (i : Nat) : List Nat × List (Tile K) :=
  if i ∈ st.1 then st
  else
    match findPartner halves st.1 i with
    | none => st
    | some j =>
        (i :: j :: st.1,
         st.2 ++ [mkRhombus (halves.getD i default) (halves.getD j default)])

/-- `halvesToTiles` from `penrose.ts`: greedy pairing of half-tiles into
rhombi over increasing indices. -/
def halvesToTiles (halves : List (HalfTile K)) : List (Tile K) :=
  ((List.range halves.length).foldl (pairStep halves) ([], [])).2

/-- The visibility filter of `generatePenroseTiling` (margin 30). -/
def tileVisible (t : Tile K) (width height : K) : Bool :=
  decide (-30 < t.center.x) && decide (t.center.x < width + 30) &&
    decide (-30 < t.center.y) && decide (t.center.y < height + 30)

end Reassembly

/-- `PHI` from `penrose.ts`: the golden ratio. -/
noncomputable def PHI : ℝ := (1 + Real.sqrt 5) / 2

/-- `subdivide` on one half-tile from `penrose.ts`: the P3 deflation step. -/
noncomputable def subdivideHalf (h : HalfTile ℝ) : List (HalfTile ℝ) :=
  match h.type with
  | HalfKind.L =>
      [⟨HalfKind.L, h.C, lerp h.A h.B (1 / PHI), h.B⟩,
       ⟨HalfKind.S, lerp h.A h.B (1 / PHI), h.C, h.A⟩]
  | HalfKind.S =>
      [⟨HalfKind.S, lerp h.B h.A (1 / PHI), lerp h.B h.C (1 / PHI), h.B⟩,
       ⟨HalfKind.S, lerp h.B h.C (1 / PHI), h.C, h.A⟩,
       ⟨HalfKind.L, lerp h.B h.C (1 / PHI), lerp h.B h.A (1 / PHI), h.A⟩]

/-- `subdivide` from `penrose.ts`. -/
noncomputable def subdivide (halves : List (HalfTile ℝ)) : List (HalfTile ℝ) :=
  halves.flatMap subdivideHalf

/-- The angle of the `k`-th outer sun vertex in `createInitialSun`. -/
noncomputable def sunAngle (k : Nat) : ℝ :=
  2 * Real.pi * (k : ℝ) / 10 - Real.pi / 2

/-- The `k`-th outer sun vertex in `createInitialSun`. -/
noncomputable def sunPoint (cx cy radius : ℝ) (k : Nat) : Point ℝ :=
  ⟨cx + radius * Real.cos (sunAngle k), cy + radius * Real.sin (sunAngle k)⟩

/-- The `i`-th half-tile of `createInitialSun`: apex at the center, base on
the outer circle, orientation alternating with the parity of `i`. -/
noncomputable def sunHalf (cx cy radius : ℝ) (i : Nat) : HalfTile ℝ :=
  if i % 2 = 0 then
    ⟨HalfKind.L, ⟨cx, cy⟩, sunPoint cx cy radius i, sunPoint cx cy radius (i + 1)⟩
  else
    ⟨HalfKind.L, ⟨cx, cy⟩, sunPoint cx cy radius (i + 1), sunPoint cx cy radius i⟩

/-- `createInitialSun` from `penrose.ts`: 10 large half-tiles around the
center. -/
noncomputable def createInitialSun (cx cy radius : ℝ) : List (HalfTile ℝ) :=
  (List.range 10).map (sunHalf cx cy radius)

/-- `generatePenroseTiling` from `penrose.ts`. -/
noncomputable def generatePenroseTiling (width height : ℝ) (iterations : Nat) :
    List (Tile ℝ) :=
  (halvesToTiles
      (subdivide^[iterations]
        (createInitialSun (width / 2) (height / 2) (max width height * (3/2))))).filter
    (fun t => tileVisible t width height)

/-- C3: `getRecoveryOrder` returns a permutation of the erased index list in
which consecutive entries have non-increasing Euclidean distance of their
tile's center from the given center (farthest first).  The embedding is pure,
so the input list is never mutated. -/
theorem getRecoveryOrder_spec (tiles : List (Tile ℝ)) (erased : List Nat)
    (c : Point ℝ) (hvalid : ∀ j ∈ erased, j < tiles.length) :
    (getRecoveryOrder tiles erased c).Perm erased ∧
    List.Chain' (fun a b =>
      Real.sqrt (sqDist (getTileCenter (tiles.getD b default)) c) ≤
        Real.sqrt (sqDist (getTileCenter (tiles.getD a default)) c))
      (getRecoveryOrder tiles erased c) := by
  constructor
  · exact List.mergeSort_perm erased _
  · have hp := @List.sorted_mergeSort Nat
      (fun a b =>
        decide (sqDist (getTileCenter (tiles.getD b default)) c ≤
          sqDist (getTileCenter (tiles.getD a default)) c))
      (by
        intro a b c'
        simp only [decide_eq_true_eq]
        intro h1 h2
        exact le_trans h2 h1)
      (by
        intro a b
        simp only [Bool.or_eq_true, decide_eq_true_eq]
        exact le_total _ _)
      erased
    have hp2 : List.Pairwise (fun a b =>
        Real.sqrt (sqDist (getTileCenter (tiles.getD b default)) c) ≤
          Real.sqrt (sqDist (getTileCenter (tiles.getD a default)) c))
        (getRecoveryOrder tiles erased c) := by
      refine List.Pairwise.imp ?_ hp
      intro a b h
      simp only [decide_eq_true_eq] at h
      exact Real.sqrt_le_sqrt h
    exact hp2.chain'

/-- Witness for C3 at a concrete input: two tiles, both erased. -/
theorem getRecoveryOrder_spec_witness :
    (getRecoveryOrder
        [(⟨TileKind.thick, [], ⟨1, 0⟩⟩ : Tile ℝ), (⟨TileKind.thick, [], ⟨5, 0⟩⟩ : Tile ℝ)]
        [0, 1] ⟨0, 0⟩).Perm [0, 1] ∧
    List.Chain' (fun a b =>
      Real.sqrt (sqDist (getTileCenter
        (([(⟨TileKind.thick, [], ⟨1, 0⟩⟩ : Tile ℝ), (⟨TileKind.thick, [], ⟨5, 0⟩⟩ : Tile ℝ)]).getD b default)) ⟨0, 0⟩) ≤
        Real.sqrt (sqDist (getTileCenter
          (([(⟨TileKind.thick, [], ⟨1, 0⟩⟩ : Tile ℝ), (⟨TileKind.thick, [], ⟨5, 0⟩⟩ : Tile ℝ)]).getD a default)) ⟨0, 0⟩))
      (getRecoveryOrder
        [(⟨TileKind.thick, [], ⟨1, 0⟩⟩ : Tile ℝ), (⟨TileKind.thick, [], ⟨5, 0⟩⟩ : Tile ℝ)]
        [0, 1] ⟨0, 0⟩) :=
  getRecoveryOrder_spec
    [(⟨TileKind.thick, [], ⟨1, 0⟩⟩ : Tile ℝ), (⟨TileKind.thick, [], ⟨5, 0⟩⟩ : Tile ℝ)]
    [0, 1] ⟨0, 0⟩ (by simp)

/-- C4: for a valid target index, `getNeighbors` returns exactly the indices
`j` of the sequence distinct from the target whose tile shares at least 2
vertices (within tolerance 1, all-pairs comparison) with the target tile; in
particular the target index itself is never returned. -/
theorem getNeighbors_spec {K : Type} [LinearOrderedField K]
    (tiles : List (Tile K)) (i : Nat) (hi : i < tiles.length) :
    (∀ j, j ∈ getNeighbors i tiles ↔
      j < tiles.length ∧ j ≠ i ∧
        2 ≤ sharedCount (tiles.getD i default) (tiles.getD j default)) ∧
    i ∉ getNeighbors i tiles := by
  constructor
  · intro j
    simp [getNeighbors, List.mem_filter, List.mem_range, and_assoc]
  · intro hmem
    simp [getNeighbors, List.mem_filter] at hmem

/-- Witness for C4 at a concrete input: two unit squares sharing an edge. -/
theorem getNeighbors_spec_witness :
    (∀ j, j ∈ getNeighbors 0
        [(⟨TileKind.thick, [⟨0, 0⟩, ⟨1, 0⟩, ⟨1, 1⟩, ⟨0, 1⟩], ⟨1/2, 1/2⟩⟩ : Tile ℚ),
         (⟨TileKind.thick, [⟨1, 0⟩, ⟨2, 0⟩, ⟨2, 1⟩, ⟨1, 1⟩], ⟨3/2, 1/2⟩⟩ : Tile ℚ)] ↔
      j < ([(⟨TileKind.thick, [⟨0, 0⟩, ⟨1, 0⟩, ⟨1, 1⟩, ⟨0, 1⟩], ⟨1/2, 1/2⟩⟩ : Tile ℚ),
         (⟨TileKind.thick, [⟨1, 0⟩, ⟨2, 0⟩, ⟨2, 1⟩, ⟨1, 1⟩], ⟨3/2, 1/2⟩⟩ : Tile ℚ)]).length ∧
        j ≠ 0 ∧
        2 ≤ sharedCount
          (([(⟨TileKind.thick, [⟨0, 0⟩, ⟨1, 0⟩, ⟨1, 1⟩, ⟨0, 1⟩], ⟨1/2, 1/2⟩⟩ : Tile ℚ),
             (⟨TileKind.thick, [⟨1, 0⟩, ⟨2, 0⟩, ⟨2, 1⟩, ⟨1, 1⟩], ⟨3/2, 1/2⟩⟩ : Tile ℚ)]).getD 0 default)
          (([(⟨TileKind.thick, [⟨0, 0⟩, ⟨1, 0⟩, ⟨1, 1⟩, ⟨0, 1⟩], ⟨1/2, 1/2⟩⟩ : Tile ℚ),
             (⟨TileKind.thick, [⟨1, 0⟩, ⟨2, 0⟩, ⟨2, 1⟩, ⟨1, 1⟩], ⟨3/2, 1/2⟩⟩ : Tile ℚ)]).getD j default)) ∧
    (0 : Nat) ∉ getNeighbors 0
        [(⟨TileKind.thick, [⟨0, 0⟩, ⟨1, 0⟩, ⟨1, 1⟩, ⟨0, 1⟩], ⟨1/2, 1/2⟩⟩ : Tile ℚ),
         (⟨TileKind.thick, [⟨1, 0⟩, ⟨2, 0⟩, ⟨2, 1⟩, ⟨1, 1⟩], ⟨3/2, 1/2⟩⟩ : Tile ℚ)] :=
  getNeighbors_spec
    [(⟨TileKind.thick, [⟨0, 0⟩, ⟨1, 0⟩, ⟨1, 1⟩, ⟨0, 1⟩], ⟨1/2, 1/2⟩⟩ : Tile ℚ),
     (⟨TileKind.thick, [⟨1, 0⟩, ⟨2, 0⟩, ⟨2, 1⟩, ⟨1, 1⟩], ⟨3/2, 1/2⟩⟩ : Tile ℚ)]
    0 (by decide)

theorem countP_eq_sum_map {α : Type} (p : α → Bool) (l : List α) :
    l.countP p = (l.map (fun a => if p a then 1 else 0)).sum := by
  induction l with
  | nil => simp
  | cons a l ih => simp [List.countP_cons, ih, Nat.add_comm]

theorem sum_countP_comm {α β : Type} (R : α → β → Bool) (l1 : List α) (l2 : List β) :
    (l1.map (fun a => l2.countP (fun b => R a b))).sum =
      (l2.map (fun b => l1.countP (fun a => R a b))).sum := by
  induction l1 with
  | nil => simp
  | cons a l1 ih =>
      simp only [List.map_cons, List.sum_cons, ih, List.countP_cons]
      rw [List.sum_map_add]
      have : (l2.map (fun b => if R a b then 1 else 0)).sum = l2.countP (fun b => R a b) :=
        (countP_eq_sum_map _ _).symm
      omega

theorem countP_any_eq_sum {α β : Type} (R : α → β → Bool) (l1 : List α) (l2 : List β)
    (hone : ∀ a, l2.countP (fun b => R a b) ≤ 1) :
    l1.countP (fun a => l2.any (fun b => R a b)) =
      (l1.map (fun a => l2.countP (fun b => R a b))).sum := by
  induction l1 with
  | nil => simp
  | cons a l1 ih =>
      rw [List.countP_cons, ih, List.map_cons, List.sum_cons]
      by_cases h : l2.any (fun b => R a b) = true
      · have h1 : 0 < l2.countP (fun b => R a b) := by
          rw [List.countP_pos_iff]
          simpa [List.any_eq_true] using h
        have : l2.countP (fun b => R a b) = 1 := le_antisymm (hone a) h1
        simp [h, this, Nat.add_comm]
      · have h0 : l2.countP (fun b => R a b) = 0 := by
          rw [List.countP_eq_zero]
          intro b hb hc
          exact h (List.any_eq_true.mpr ⟨b, hb, hc⟩)
        simp [h, h0]

theorem countP_closePt_le_one {K : Type} [LinearOrderedField K]
    (a : Point K) (l : List (Point K))
    (hsep : l.Pairwise (fun u v => 2 ≤ |u.x - v.x| ∨ 2 ≤ |u.y - v.y|)) :
    l.countP (fun v => closePt 1 a v) ≤ 1 := by
  induction l with
  | nil => simp
  | cons v l ih =>
      rw [List.pairwise_cons] at hsep
      rw [List.countP_cons]
      by_cases h : closePt 1 a v = true
      · have h0 : l.countP (fun w => closePt 1 a w) = 0 := by
          rw [List.countP_eq_zero]
          intro w hw hcw
          have hs := hsep.1 w hw
          simp only [closePt, Bool.and_eq_true, decide_eq_true_eq] at h hcw
          have hvax : |v.x - a.x| < 1 := by rw [abs_sub_comm]; exact h.1
          have hvay : |v.y - a.y| < 1 := by rw [abs_sub_comm]; exact h.2
          have htrix := abs_sub_le v.x a.x w.x
          have htriy := abs_sub_le v.y a.y w.y
          rcases hs with hs | hs
          · have := hcw.1
            linarith
          · have := hcw.2
            linarith
        simp [h, h0]
      · simp only [h, if_false]
        exact Nat.le_trans (Nat.le_of_eq rfl) (by simpa using ih hsep.2)

theorem closePt_comm {K : Type} [LinearOrderedField K] (u v : Point K) :
    closePt (1 : K) u v = closePt 1 v u := by
  simp only [closePt]
  rw [abs_sub_comm u.x v.x, abs_sub_comm u.y v.y]

theorem sharedCount_comm {K : Type} [LinearOrderedField K] (t1 t2 : Tile K)
    (h1 : separated t1) (h2 : separated t2) :
    sharedCount t1 t2 = sharedCount t2 t1 := by
  unfold sharedCount
  rw [countP_any_eq_sum (fun a b => closePt 1 a b) t1.vertices t2.vertices
        (fun a => countP_closePt_le_one a t2.vertices h2),
      countP_any_eq_sum (fun a b => closePt 1 a b) t2.vertices t1.vertices
        (fun a => countP_closePt_le_one a t1.vertices h1),
      sum_countP_comm]
  apply congrArg List.sum
  apply List.map_congr_left
  intro b _
  refine List.countP_congr ?_
  intro a _
  rw [closePt_comm]

/-- C5 counterexample: the adjacency of `getNeighbors` is not symmetric.  Two
vertices of the first tile are both within tolerance of a single vertex of the
second tile, so the first tile counts 2 shared vertices while the second
counts only 1. -/
theorem getNeighbors_not_symm :
    1 ∈ getNeighbors 0
      [(⟨TileKind.thick, [⟨0, 0⟩, ⟨1/2, 0⟩, ⟨10, 10⟩, ⟨20, 20⟩], ⟨0, 0⟩⟩ : Tile ℚ),
       (⟨TileKind.thick, [⟨1/4, 0⟩, ⟨30, 30⟩, ⟨40, 40⟩, ⟨50, 50⟩], ⟨0, 0⟩⟩ : Tile ℚ)] ∧
    0 ∉ getNeighbors 1
      [(⟨TileKind.thick, [⟨0, 0⟩, ⟨1/2, 0⟩, ⟨10, 10⟩, ⟨20, 20⟩], ⟨0, 0⟩⟩ : Tile ℚ),
       (⟨TileKind.thick, [⟨1/4, 0⟩, ⟨30, 30⟩, ⟨40, 40⟩, ⟨50, 50⟩], ⟨0, 0⟩⟩ : Tile ℚ)] := by
  decide

/-- C5 (amended): if every tile of the sequence has well-separated vertices
(any two vertices at least twice the tolerance apart in some coordinate, as
for genuine rhombi at the coordinate scale used), then the adjacency computed
by `getNeighbors` is symmetric. -/
theorem getNeighbors_symm {K : Type} [LinearOrderedField K]
    (tiles : List (Tile K)) (i j : Nat)
    (hsep : ∀ t ∈ tiles, separated t)
    (hj : j ∈ getNeighbors i tiles) : i ∈ getNeighbors j tiles := by
  simp only [getNeighbors, List.mem_filter, List.mem_range, Bool.and_eq_true,
    decide_eq_true_eq] at hj ⊢
  obtain ⟨hjlen, hrest⟩ := hj
  obtain ⟨hji, hcount⟩ := hrest
  have hilen : i < tiles.length := by
    by_contra hcon
    push_neg at hcon
    have hdef : tiles.getD i default = default := by
      rw [List.getD_eq_getElem?_getD, List.getElem?_eq_none hcon]
      rfl
    rw [hdef] at hcount
    have : sharedCount (default : Tile K) (tiles.getD j default) = 0 := rfl
    omega
  have hmi : tiles.getD i default ∈ tiles := by
    rw [List.getD_eq_getElem _ _ hilen]
    exact List.getElem_mem hilen
  have hmj : tiles.getD j default ∈ tiles := by
    rw [List.getD_eq_getElem _ _ hjlen]
    exact List.getElem_mem hjlen
  refine ⟨hilen, fun hij => hji hij.symm, ?_⟩
  rw [sharedCount_comm _ _ (hsep _ hmj) (hsep _ hmi)]
  exact hcount

/-- Witness for the amended C5: two 3-by-3 squares sharing a full edge. -/
theorem getNeighbors_symm_witness :
    0 ∈ getNeighbors 1
      [(⟨TileKind.thick, [⟨0, 0⟩, ⟨3, 0⟩, ⟨3, 3⟩, ⟨0, 3⟩], ⟨3/2, 3/2⟩⟩ : Tile ℚ),
       (⟨TileKind.thick, [⟨3, 0⟩, ⟨6, 0⟩, ⟨6, 3⟩, ⟨3, 3⟩], ⟨9/2, 3/2⟩⟩ : Tile ℚ)] :=
  getNeighbors_symm
    [(⟨TileKind.thick, [⟨0, 0⟩, ⟨3, 0⟩, ⟨3, 3⟩, ⟨0, 3⟩], ⟨3/2, 3/2⟩⟩ : Tile ℚ),
     (⟨TileKind.thick, [⟨3, 0⟩, ⟨6, 0⟩, ⟨6, 3⟩, ⟨3, 3⟩], ⟨9/2, 3/2⟩⟩ : Tile ℚ)]
    0 1 (by decide) (by decide)

/-- C1: for mode `periodic`, `recoverTiles` keeps length and order; a tile at a
non-erased index is unchanged, and a tile at an erased index keeps its kind and
has each vertex and its center translated by exactly `(+8, +6)`. -/
theorem recoverTiles_periodic_spec {K : Type} [LinearOrderedField K]
    (tiles : List (Tile K)) (erased : List Nat)
    (hvalid : ∀ j ∈ erased, j < tiles.length) (i : Nat) (hi : i < tiles.length) :
    (recoverTiles tiles erased Mode.periodic).length = tiles.length ∧
    (i ∉ erased →
      (recoverTiles tiles erased Mode.periodic).getD i default = tiles.getD i default) ∧
    (i ∈ erased →
      ((recoverTiles tiles erased Mode.periodic).getD i default).type
          = (tiles.getD i default).type ∧
      ((recoverTiles tiles erased Mode.periodic).getD i default).vertices
          = ((tiles.getD i default).vertices).map (shiftPoint 8 6) ∧
      ((recoverTiles tiles erased Mode.periodic).getD i default).center
          = shiftPoint 8 6 ((tiles.getD i default).center)) := by
  have hlen : (recoverTiles tiles erased Mode.periodic).length = tiles.length := by
    simp [recoverTiles]
  refine ⟨hlen, ?_, ?_⟩
  · intro hmem
    rw [List.getD_eq_getElem _ _ (hlen ▸ hi), List.getD_eq_getElem _ _ hi]
    simp [recoverTiles, hmem]
  · intro hmem
    rw [List.getD_eq_getElem _ _ (hlen ▸ hi), List.getD_eq_getElem _ _ hi]
    simp [recoverTiles, hmem, shiftTile]

/-- Witness for C1 at a concrete input. -/
theorem recoverTiles_periodic_spec_witness :
    (recoverTiles [(⟨TileKind.thick, [⟨0, 0⟩, ⟨1, 0⟩, ⟨1, 1⟩, ⟨0, 1⟩], ⟨1/2, 1/2⟩⟩ : Tile ℚ)]
        [0] Mode.periodic).length = 1 ∧
    ((0 : Nat) ∉ [0] →
      (recoverTiles [(⟨TileKind.thick, [⟨0, 0⟩, ⟨1, 0⟩, ⟨1, 1⟩, ⟨0, 1⟩], ⟨1/2, 1/2⟩⟩ : Tile ℚ)]
          [0] Mode.periodic).getD 0 default
        = ([(⟨TileKind.thick, [⟨0, 0⟩, ⟨1, 0⟩, ⟨1, 1⟩, ⟨0, 1⟩], ⟨1/2, 1/2⟩⟩ : Tile ℚ)]).getD 0 default) ∧
    ((0 : Nat) ∈ [0] →
      ((recoverTiles [(⟨TileKind.thick, [⟨0, 0⟩, ⟨1, 0⟩, ⟨1, 1⟩, ⟨0, 1⟩], ⟨1/2, 1/2⟩⟩ : Tile ℚ)]
          [0] Mode.periodic).getD 0 default).type
        = (([(⟨TileKind.thick, [⟨0, 0⟩, ⟨1, 0⟩, ⟨1, 1⟩, ⟨0, 1⟩], ⟨1/2, 1/2⟩⟩ : Tile ℚ)]).getD 0 default).type ∧
      ((recoverTiles [(⟨TileKind.thick, [⟨0, 0⟩, ⟨1, 0⟩, ⟨1, 1⟩, ⟨0, 1⟩], ⟨1/2, 1/2⟩⟩ : Tile ℚ)]
          [0] Mode.periodic).getD 0 default).vertices
        = (([(⟨TileKind.thick, [⟨0, 0⟩, ⟨1, 0⟩, ⟨1, 1⟩, ⟨0, 1⟩], ⟨1/2, 1/2⟩⟩ : Tile ℚ)]).getD 0 default).vertices.map (shiftPoint 8 6) ∧
      ((recoverTiles [(⟨TileKind.thick, [⟨0, 0⟩, ⟨1, 0⟩, ⟨1, 1⟩, ⟨0, 1⟩], ⟨1/2, 1/2⟩⟩ : Tile ℚ)]
          [0] Mode.periodic).getD 0 default).center
        = shiftPoint 8 6 (([(⟨TileKind.thick, [⟨0, 0⟩, ⟨1, 0⟩, ⟨1, 1⟩, ⟨0, 1⟩], ⟨1/2, 1/2⟩⟩ : Tile ℚ)]).getD 0 default).center) :=
  recoverTiles_periodic_spec
    [(⟨TileKind.thick, [⟨0, 0⟩, ⟨1, 0⟩, ⟨1, 1⟩, ⟨0, 1⟩], ⟨1/2, 1/2⟩⟩ : Tile ℚ)]
    [0] (by decide) 0 (by decide)

/-- C2: `recoverTiles` with mode `penrose` is the identity, independent of the
erased index list. -/
theorem recoverTiles_penrose_id {K : Type} [LinearOrderedField K]
    (tiles : List (Tile K)) (erased : List Nat) :
    recoverTiles tiles erased Mode.penrose = tiles := rfl

theorem sqrtLtB_correct (s b : ℝ) (hs : 0 ≤ s) :
    sqrtLtB s b = true ↔ Real.sqrt s < b := by
  unfold sqrtLtB
  simp only [Bool.and_eq_true, decide_eq_true_eq]
  constructor
  · rintro ⟨hb, hlt⟩
    exact (Real.sqrt_lt' hb).mpr hlt
  · intro hlt
    have hb : 0 < b := lt_of_le_of_lt (Real.sqrt_nonneg s) hlt
    exact ⟨hb, (Real.sqrt_lt' hb).mp hlt⟩

theorem leSqrtB_correct (b s : ℝ) (hs : 0 ≤ s) :
    leSqrtB b s = true ↔ b ≤ Real.sqrt s := by
  unfold leSqrtB
  simp only [Bool.or_eq_true, decide_eq_true_eq]
  constructor
  · rintro (hb | hle)
    · exact le_trans hb (Real.sqrt_nonneg s)
    · rcases le_or_lt b 0 with hb | hb
      · exact le_trans hb (Real.sqrt_nonneg s)
      · exact (Real.le_sqrt hb.le hs).mpr hle
  · intro hle
    rcases le_or_lt b 0 with hb | hb
    · exact Or.inl hb
    · exact Or.inr ((Real.le_sqrt hb.le hs).mp hle)

theorem sqDist_nonneg {K : Type} [LinearOrderedField K] (p q : Point K) :
    0 ≤ sqDist p q :=
  add_nonneg (sq_nonneg _) (sq_nonneg _)

/-- C7 counterexample: a tile whose center lies at distance exactly
`1.5 * eraseRadius` from the erase center satisfies the claimed closed
annulus `[0.8R, 1.5R]` and is not erased, yet `getBoundaryTiles` excludes it
(the source comparison for the outer boundary is strict). -/
theorem getBoundaryTiles_outer_boundary_cex :
    getBoundaryTiles [(⟨TileKind.thick, [], ⟨3, 0⟩⟩ : Tile ℝ)] ∅ ⟨0, 0⟩ 2 = [] ∧
    (0 : Nat) < ([(⟨TileKind.thick, [], ⟨3, 0⟩⟩ : Tile ℝ)]).length ∧
    (0 : Nat) ∉ (∅ : Finset Nat) ∧
    2 * (8/10) ≤
      Real.sqrt (sqDist (getTileCenter
        (([(⟨TileKind.thick, [], ⟨3, 0⟩⟩ : Tile ℝ)]).getD 0 default)) ⟨0, 0⟩) ∧
    Real.sqrt (sqDist (getTileCenter
        (([(⟨TileKind.thick, [], ⟨3, 0⟩⟩ : Tile ℝ)]).getD 0 default)) ⟨0, 0⟩) ≤
      2 * (15/10) := by
  have h9 : sqDist (getTileCenter
      (([(⟨TileKind.thick, [], ⟨3, 0⟩⟩ : Tile ℝ)]).getD 0 default)) (⟨0, 0⟩ : Point ℝ)
      = 9 := by
    norm_num [sqDist, getTileCenter]
  have hsqrt : Real.sqrt (9 : ℝ) = 3 := by
    rw [show (9 : ℝ) = 3 ^ 2 by norm_num, Real.sqrt_sq (by norm_num)]
  refine ⟨?_, by norm_num, by simp, ?_, ?_⟩
  · norm_num [getBoundaryTiles, sqrtLtB, leSqrtB, sqDist, getTileCenter,
      List.filter]
  · rw [h9, hsqrt]
    norm_num
  · rw [h9, hsqrt]
    norm_num

/-- C7 (amended): `getBoundaryTiles` returns, in ascending source order,
exactly the non-erased valid indices whose tile center distance `d` from the
center satisfies `0.8 * R ≤ d < 1.5 * R` (half-open annulus: the outer
boundary circle is excluded). -/
theorem getBoundaryTiles_spec (tiles : List (Tile ℝ)) (erased : Finset Nat)
    (c : Point ℝ) (R : ℝ) :
    List.Sorted (· < ·) (getBoundaryTiles tiles erased c R) ∧
    ∀ i, i ∈ getBoundaryTiles tiles erased c R ↔
      i < tiles.length ∧ i ∉ erased ∧
      R * (8/10) ≤ Real.sqrt (sqDist (getTileCenter (tiles.getD i default)) c) ∧
      Real.sqrt (sqDist (getTileCenter (tiles.getD i default)) c) < R * (15/10) := by
  constructor
  · exact List.Pairwise.filter _ (List.pairwise_lt_range tiles.length)
  · intro i
    have hs : 0 ≤ sqDist (getTileCenter (tiles.getD i default)) c :=
      sqDist_nonneg _ _
    simp only [getBoundaryTiles, List.mem_filter, List.mem_range,
      Bool.and_eq_true, Bool.not_eq_true', decide_eq_false_iff_not]
    rw [sqrtLtB_correct _ _ hs, leSqrtB_correct _ _ hs]
    tauto

theorem neg_tmod_eq (a b : ℤ) : (-a).tmod b = -(a.tmod b) := by
  rw [Int.tmod_def, Int.tmod_def, Int.neg_tdiv]
  ring

theorem tmod_two_char (r : ℤ) :
    Int.tmod r 2 = if r % 2 = 0 then 0 else if 0 ≤ r then 1 else -1 := by
  rcases le_or_lt 0 r with h0 | h0
  · rw [Int.tmod_eq_emod h0 (by norm_num)]
    rcases Int.emod_two_eq r with h | h <;> simp [h] <;> omega
  · have hr : r = -(-r) := by ring
    rw [hr, neg_tmod_eq (-r) 2, Int.tmod_eq_emod (by omega) (by norm_num)]
    have h2 : (-r) % 2 = 0 ↔ r % 2 = 0 := by omega
    rcases Int.emod_two_eq (-r) with h | h
    · simp [h2.mp h, h]
    · have hodd : ¬r % 2 = 0 := by omega
      simp only [hodd, if_false, h]
      omega

/-- C9 counterexample: at `row = -1`, `col = 0`, `tileSize = 30` the source
anchor is `(-15, -27)`: the horizontal offset of this odd negative row is
`-tileSize/2`, not the claimed `+tileSize/2` (which would give `(15, -27)`). -/
theorem baseAnchor_neg_row_cex :
    baseAnchor (30 : ℚ) (-1) 0 = ⟨-15, -27⟩ ∧
      (⟨-15, -27⟩ : Point ℚ) ≠ ⟨(0 : ℚ) * 30 + 30 / 2, (-1 : ℚ) * 30 * (9/10)⟩ := by
  constructor
  · show Point.mk _ _ = _
    norm_num [baseAnchor]
    decide
  · decide

/-- C9 (amended): the base anchor of the cell at `(row, col)` is
`(col*tileSize + offset, row*0.9*tileSize)` where the offset is `tileSize/2`
for odd nonnegative rows, `-tileSize/2` for odd negative rows (the source
language's `%` is a truncated remainder, so `row % 2` is `-1` there), and `0`
for even rows. -/
theorem baseAnchor_spec {K : Type} [LinearOrderedField K] (s : K) (row col : ℤ) :
    baseAnchor s row col =
      ⟨(col : K) * s +
          (if row % 2 = 0 then 0 else if 0 ≤ row then s / 2 else -(s / 2)),
        (row : K) * s * (9/10)⟩ := by
  unfold baseAnchor
  simp only [Point.mk.injEq, and_true]
  rw [tmod_two_char]
  split_ifs <;> push_cast <;> ring

/-- C10: every tile of `generatePeriodicTiling` has kind tag `thick` (the
same tag as Penrose thick rhombi) and 4 vertices at the cell anchor
translated by `(0,0)`, `(s,0)`, `(1.3s, 0.8s)`, `(0.3s, 0.8s)`: all periodic
tiles are translates of one single parallelogram. -/
theorem generatePeriodicTiling_shape {K : Type} [LinearOrderedField K]
    [FloorRing K] (w h s : K) (t : Tile K)
    (ht : t ∈ generatePeriodicTiling w h s) :
    t.type = TileKind.thick ∧
    ∃ a : Point K, t.vertices =
      [a, ⟨a.x + s, a.y⟩, ⟨a.x + (13/10) * s, a.y + (8/10) * s⟩,
       ⟨a.x + (3/10) * s, a.y + (8/10) * s⟩] := by
  simp only [generatePeriodicTiling, List.mem_flatMap, List.mem_filter,
    List.mem_map] at ht
  obtain ⟨row, hrow, ⟨col, hcol, rfl⟩, hvis⟩ := ht
  refine ⟨rfl, baseAnchor s row col, ?_⟩
  simp only [periodicTile, List.cons.injEq, Point.mk.injEq]
  and_intros <;> ring

/-- Witness for C10 at a concrete input. -/
theorem generatePeriodicTiling_shape_witness :
    (periodicTile (30 : ℚ) 0 0).type = TileKind.thick ∧
    ∃ a : Point ℚ, (periodicTile (30 : ℚ) 0 0).vertices =
      [a, ⟨a.x + 30, a.y⟩, ⟨a.x + (13/10) * 30, a.y + (8/10) * 30⟩,
       ⟨a.x + (3/10) * 30, a.y + (8/10) * 30⟩] :=
  generatePeriodicTiling_shape (-30 : ℚ) (-30) 30 (periodicTile 30 0 0)
    (by decide)

theorem foldl_pairStep_centroid {K : Type} [LinearOrderedField K]
    (halves : List (HalfTile K)) (l : List Nat) (st : List Nat × List (Tile K))
    (hst : ∀ t ∈ st.2, isCentroid t) :
    ∀ t ∈ (l.foldl (pairStep halves) st).2, isCentroid t := by
  induction l generalizing st with
  | nil => simpa using hst
  | cons i l ih =>
      rw [List.foldl_cons]
      apply ih
      unfold pairStep
      split
      · exact hst
      · split
        · exact hst
        · intro t hmem
          rw [List.mem_append] at hmem
          rcases hmem with hmem | hmem
          · exact hst t hmem
          · rw [List.mem_singleton] at hmem
            subst hmem
            exact ⟨_, _, _, _, rfl, rfl⟩

theorem halvesToTiles_centroid {K : Type} [LinearOrderedField K]
    (halves : List (HalfTile K)) :
    ∀ t ∈ halvesToTiles halves, isCentroid t := by
  unfold halvesToTiles
  exact foldl_pairStep_centroid halves _ ([], []) (by simp)

/-- C6: every tile produced by `generatePenroseTiling` or by
`generatePeriodicTiling` has its cached center equal to the arithmetic mean
of its 4 vertices (exactly, in the idealized arithmetic); in particular the
periodic generator's fixed center offsets `(0.65, 0.4) * tileSize` coincide
with the vertex mean. -/
theorem tiles_center_mean :
    (∀ (w h : ℝ) (n : Nat) (t : Tile ℝ),
      t ∈ generatePenroseTiling w h n → isCentroid t) ∧
    (∀ (K : Type) [LinearOrderedField K] [FloorRing K] (w h s : K) (t : Tile K),
      t ∈ generatePeriodicTiling w h s → isCentroid t) := by
  constructor
  · intro w h n t ht
    unfold generatePenroseTiling at ht
    rw [List.mem_filter] at ht
    exact halvesToTiles_centroid _ t ht.1
  · intro K instK instF w h s t ht
    simp only [generatePeriodicTiling, List.mem_flatMap, List.mem_filter,
      List.mem_map] at ht
    obtain ⟨row, hrow, ⟨col, hcol, rfl⟩, hvis⟩ := ht
    refine ⟨_, _, _, _, rfl, ?_⟩
    simp only [periodicTile, Point.mk.injEq]
    constructor <;> ring

/-- Witness for C6 at a concrete input (periodic generator over `ℚ`). -/
theorem tiles_center_mean_witness : isCentroid (periodicTile (30 : ℚ) (-1) 0) :=
  tiles_center_mean.2 ℚ (-30) (-30) 30 (periodicTile 30 (-1) 0) (by decide)

theorem foldl_const {α β : Type} (f : β → α → β) (b : β) (l : List α)
    (h : ∀ a ∈ l, f b a = b) : l.foldl f b = b := by
  induction l with
  | nil => rfl
  | cons a l ih =>
      rw [List.foldl_cons, h a (by simp)]
      exact ih (fun a ha => h a (by simp [ha]))

theorem sunAngle_sub (a b : Nat) :
    sunAngle a - sunAngle b = ((a : ℝ) - (b : ℝ)) * (Real.pi / 5) := by
  unfold sunAngle
  ring

theorem sqDist_sunPoint (cx cy R : ℝ) (a b : Nat) :
    sqDist (sunPoint cx cy R a) (sunPoint cx cy R b) =
      R ^ 2 * (2 - 2 * Real.cos (sunAngle a - sunAngle b)) := by
  unfold sqDist sunPoint
  rw [Real.cos_sub]
  have ha := Real.sin_sq_add_cos_sq (sunAngle a)
  have hb := Real.sin_sq_add_cos_sq (sunAngle b)
  simp only
  nlinarith [ha, hb]

theorem cos_le_cos_pi_div_five (x : ℝ) (h1 : Real.pi / 5 ≤ x)
    (h2 : x ≤ 9 * Real.pi / 5) : Real.cos x ≤ (1 + Real.sqrt 5) / 4 := by
  have hpi := Real.pi_pos
  rcases le_total x Real.pi with hx | hx
  · rw [← Real.cos_pi_div_five]
    exact Real.cos_le_cos_of_nonneg_of_le_pi (by positivity) hx h1
  · rw [← Real.cos_two_pi_sub x, ← Real.cos_pi_div_five]
    exact Real.cos_le_cos_of_nonneg_of_le_pi (by positivity) (by linarith)
      (by linarith)

theorem sqDist_sun_ge (cx cy : ℝ) (a b : Nat) (ha : a ≤ 10) (hb : b ≤ 10)
    (hne : a % 10 ≠ b % 10) :
    4 ≤ sqDist (sunPoint cx cy 1650 a) (sunPoint cx cy 1650 b) := by
  have hpi := Real.pi_pos
  rw [sqDist_sunPoint, sunAngle_sub]
  have hd : (1 ≤ (a : ℤ) - b ∧ (a : ℤ) - b ≤ 9) ∨
      (-9 ≤ (a : ℤ) - b ∧ (a : ℤ) - b ≤ -1) := by omega
  have hcast : ((a : ℝ) - (b : ℝ)) = (((a : ℤ) - (b : ℤ) : ℤ) : ℝ) := by
    push_cast
    ring
  have habs1 : Real.pi / 5 ≤ |((a : ℝ) - (b : ℝ)) * (Real.pi / 5)| := by
    rw [abs_mul, abs_of_pos (by positivity : (0:ℝ) < Real.pi / 5), hcast]
    rcases hd with ⟨h1, h2⟩ | ⟨h1, h2⟩
    · rw [abs_of_pos (by exact_mod_cast h1.trans_lt' (by norm_num))]
      have : (1 : ℝ) ≤ (((a : ℤ) - (b : ℤ) : ℤ) : ℝ) := by exact_mod_cast h1
      nlinarith
    · rw [abs_of_neg (by exact_mod_cast h2.trans_lt (by norm_num))]
      have : (1 : ℝ) ≤ -(((a : ℤ) - (b : ℤ) : ℤ) : ℝ) := by
        have : (((a : ℤ) - (b : ℤ) : ℤ) : ℝ) ≤ -1 := by exact_mod_cast h2
        linarith
      nlinarith
  have habs2 : |((a : ℝ) - (b : ℝ)) * (Real.pi / 5)| ≤ 9 * Real.pi / 5 := by
    rw [abs_mul, abs_of_pos (by positivity : (0:ℝ) < Real.pi / 5), hcast]
    rcases hd with ⟨h1, h2⟩ | ⟨h1, h2⟩
    · rw [abs_of_pos (by exact_mod_cast h1.trans_lt' (by norm_num))]
      have : (((a : ℤ) - (b : ℤ) : ℤ) : ℝ) ≤ 9 := by exact_mod_cast h2
      nlinarith
    · rw [abs_of_neg (by exact_mod_cast h2.trans_lt (by norm_num))]
      have : -(((a : ℤ) - (b : ℤ) : ℤ) : ℝ) ≤ 9 := by
        have : (-9 : ℝ) ≤ (((a : ℤ) - (b : ℤ) : ℤ) : ℝ) := by exact_mod_cast h1
        linarith
      nlinarith
  have hcos : Real.cos (((a : ℝ) - (b : ℝ)) * (Real.pi / 5)) ≤
      (1 + Real.sqrt 5) / 4 := by
    rw [← Real.cos_abs]
    exact cos_le_cos_pi_div_five _ habs1 habs2
  have h5 : Real.sqrt 5 ≤ 9 / 4 := by
    rw [show (9 / 4 : ℝ) = Real.sqrt ((9 / 4) ^ 2) from
      (Real.sqrt_sq (by norm_num)).symm]
    apply Real.sqrt_le_sqrt
    norm_num
  nlinarith [hcos, h5]

theorem sunHalf_type (cx cy R : ℝ) (i : Nat) :
    (sunHalf cx cy R i).type = HalfKind.L := by
  unfold sunHalf
  split <;> rfl

theorem createInitialSun_length (cx cy R : ℝ) :
    (createInitialSun cx cy R).length = 10 := by
  simp [createInitialSun]

theorem createInitialSun_getD (cx cy R : ℝ) (i : Nat) (hi : i < 10) :
    (createInitialSun cx cy R).getD i default = sunHalf cx cy R i := by
  unfold createInitialSun
  rw [List.getD_eq_getElem _ _ (by simpa using hi)]
  simp

theorem edgeMatch_false_of (h1 h2 : HalfTile ℝ)
    (hBB : 4 ≤ sqDist h1.B h2.B ∨ 4 ≤ sqDist h1.C h2.C)
    (hBC : 4 ≤ sqDist h1.B h2.C ∨ 4 ≤ sqDist h1.C h2.B) :
    edgeMatch 4 h1 h2 = false := by
  unfold edgeMatch
  have e1 : (decide (sqDist h1.B h2.B < 4) && decide (sqDist h1.C h2.C < 4))
      = false := by
    rcases hBB with h | h
    · rw [decide_eq_false (not_lt.mpr h), Bool.false_and]
    · rw [decide_eq_false (not_lt.mpr h), Bool.and_false]
  have e2 : (decide (sqDist h1.B h2.C < 4) && decide (sqDist h1.C h2.B < 4))
      = false := by
    rcases hBC with h | h
    · rw [decide_eq_false (not_lt.mpr h), Bool.false_and]
    · rw [decide_eq_false (not_lt.mpr h), Bool.and_false]
  rw [e1, e2]
  rfl

theorem sunHalf_base (cx cy R : ℝ) (i : Nat) :
    ((sunHalf cx cy R i).B = sunPoint cx cy R i ∧
      (sunHalf cx cy R i).C = sunPoint cx cy R (i + 1)) ∨
    ((sunHalf cx cy R i).B = sunPoint cx cy R (i + 1) ∧
      (sunHalf cx cy R i).C = sunPoint cx cy R i) := by
  unfold sunHalf
  split
  · exact Or.inl ⟨rfl, rfl⟩
  · exact Or.inr ⟨rfl, rfl⟩

set_option maxHeartbeats 1600000 in
theorem sun_edgeMatch_false (cx cy : ℝ) (i j : Nat) (hij : i < j) (hj : j < 10) :
    edgeMatch 4 (sunHalf cx cy 1650 i) (sunHalf cx cy 1650 j) = false := by
  have hD1 : 4 ≤ sqDist (sunPoint cx cy 1650 i) (sunPoint cx cy 1650 j) :=
    sqDist_sun_ge cx cy i j (by omega) (by omega) (by omega)
  have hD1s : 4 ≤ sqDist (sunPoint cx cy 1650 (i + 1))
      (sunPoint cx cy 1650 (j + 1)) :=
    sqDist_sun_ge cx cy (i + 1) (j + 1) (by omega) (by omega) (by omega)
  have hD2 : 4 ≤ sqDist (sunPoint cx cy 1650 i) (sunPoint cx cy 1650 (j + 1)) ∨
      4 ≤ sqDist (sunPoint cx cy 1650 (i + 1)) (sunPoint cx cy 1650 j) := by
    by_cases hc : i = 0 ∧ j = 9
    · right
      exact sqDist_sun_ge cx cy (i + 1) j (by omega) (by omega) (by omega)
    · left
      exact sqDist_sun_ge cx cy i (j + 1) (by omega) (by omega) (by omega)
  rcases sunHalf_base cx cy 1650 i with ⟨hBi, hCi⟩ | ⟨hBi, hCi⟩ <;>
    rcases sunHalf_base cx cy 1650 j with ⟨hBj, hCj⟩ | ⟨hBj, hCj⟩ <;>
      refine edgeMatch_false_of _ _ ?_ ?_ <;> rw [hBi, hCi, hBj, hCj] <;> tauto

theorem sun_no_partner (cx cy : ℝ) (used : List Nat) (i : Nat) :
    findPartner (createInitialSun cx cy 1650) used i = none := by
  unfold findPartner
  rw [List.find?_eq_none]
  intro j hj
  rw [List.mem_range'] at hj
  obtain ⟨k, hk, rfl⟩ := hj
  rw [createInitialSun_length] at hk
  have hij : i < i + 1 + 1 * k := by omega
  have hj10 : i + 1 + 1 * k < 10 := by omega
  have hi10 : i < 10 := by omega
  have hfalse : matchOk (createInitialSun cx cy 1650) used i (i + 1 + 1 * k)
      = false := by
    unfold matchOk
    rw [createInitialSun_getD _ _ _ i hi10, createInitialSun_getD _ _ _ _ hj10,
      sun_edgeMatch_false cx cy i (i + 1 + 1 * k) hij hj10]
    simp
  simpa using hfalse

theorem sun_halvesToTiles_empty (cx cy : ℝ) :
    halvesToTiles (createInitialSun cx cy 1650) = [] := by
  unfold halvesToTiles
  have hstep : ∀ i ∈ List.range (createInitialSun cx cy 1650).length,
      pairStep (createInitialSun cx cy 1650) ([], []) i = ([], []) := by
    intro i hi
    unfold pairStep
    rw [if_neg (List.not_mem_nil i), sun_no_partner]
  rw [foldl_const _ _ _ hstep]

/-- C8: `generatePenroseTiling 1100 500 0` returns the empty tile sequence:
with zero subdivision iterations no two of the 10 initial sun half-tiles
share a base edge within tolerance (all outer sun vertices are at least 2
units apart on the radius-1650 circle), so reassembly produces no rhombus. -/
theorem generatePenroseTiling_zero_iterations :
    generatePenroseTiling 1100 500 0 = [] := by
  unfold generatePenroseTiling
  rw [Function.iterate_zero_apply]
  have h1 : (1100 : ℝ) / 2 = 550 := by norm_num
  have h2 : (500 : ℝ) / 2 = 250 := by norm_num
  have h3 : max (1100 : ℝ) 500 * (3/2) = 1650 := by
    rw [max_eq_left (by norm_num)]
    norm_num
  rw [h1, h2, h3, sun_halvesToTiles_empty]
  rfl

end Aperiodic
